import Mathlib

/-!
Verification of the chunking → indexing → retrieval pipeline of the
Archivist research-paper tool (`python_rag` package).

Texts are modelled as `List Char`; similarity scores as `ℚ`; fallible
external calls as `Except Unit`.  Every definition is transcribed from the
corresponding Python function in `src/python_rag/`.
-/

set_option maxRecDepth 10000

abbrev Str := List Char

/-- Python `\s` on the ASCII range: space, tab, newline, carriage return,
vertical tab, form feed. -/
def pyIsSpace (c : Char) : Bool :=
  c = ' ' || c = '\t' || c = '\n' || c = '\r' || c = '\x0b' || c = '\x0c'

/-- Python `str.strip()`: drop whitespace from both ends. -/
def pyStrip (s : Str) : Str :=
  ((s.dropWhile pyIsSpace).reverse.dropWhile pyIsSpace).reverse

/-- State machine for `re.sub(r'\n{3,}', '\n\n', text)`: a newline is
dropped exactly when at least two newlines immediately precede it, which
keeps the first two newlines of every run; `k` counts the immediately
preceding newlines, capped at 2. -/
def reduceNewlinesGo : Nat → Str → Str
  | _, [] => []
  | k, c :: rest =>
    if c = '\n' then
      if k ≥ 2 then reduceNewlinesGo k rest
      else '\n' :: reduceNewlinesGo (k + 1) rest
    else
      c :: reduceNewlinesGo 0 rest

/-- Model of `re.sub(r'\n{3,}', '\n\n', text)`: collapse runs of three or more
newlines to exactly two. -/
def reduceNewlines (l : Str) : Str := reduceNewlinesGo 0 l

/-- State machine for `re.sub(r'[ \t]+', ' ', text)`: the first character
of every space/tab run becomes a single space, the rest of the run is
dropped; `inRun` records whether the previous character was a space/tab. -/
def collapseSpacesGo : Bool → Str → Str
  | _, [] => []
  | inRun, c :: rest =>
    if c = ' ' ∨ c = '\t' then
      if inRun then collapseSpacesGo true rest
      else ' ' :: collapseSpacesGo true rest
    else
      c :: collapseSpacesGo false rest

/-- Model of `re.sub(r'[ \t]+', ' ', text)`: collapse runs of spaces or tabs to a
single space. -/
def collapseSpaces (l : Str) : Str := collapseSpacesGo false l

/-- Try to match `cmd{body}` (with non-empty `body` free of closing braces)
at the start of `s`; on success return the body and the remainder after the
closing brace. -/
def matchOneCmd (cmd : Str) (s : Str) : Option (Str × Str) :=
  if cmd.isPrefixOf s then
    match s.drop cmd.length with
    | '\x7b' :: u =>
      match u.span (fun d => d ≠ '\x7d') with
      | (b :: bs, '\x7d' :: v) => some (b :: bs, v)
      | _ => none
    | _ => none
  else none

/-- Regex alternation: try each command name in order. -/
def matchFirstCmd : List Str → Str → Option (Str × Str)
  | [], _ => none
  | cmd :: more, s =>
    match matchOneCmd cmd s with
    | some r => some r
    | none => matchFirstCmd more s

def textCmds : List Str := ["textbf".data, "textit".data, "emph".data, "texttt".data]

def refCmds : List Str := ["cite".data, "ref".data, "label".data]

/-- Fuel-driven scan for `re.sub` over the command patterns: on a backslash
that starts a full `\cmd{body}` match, emit the body (or nothing when
`keepBody` is false) and resume after the closing brace; otherwise copy one
character.  A match consumes at least one input character, so fuel
`s.length` always suffices. -/
def stripCmdsGo (cmds : List Str) (keepBody : Bool) : Nat → Str → Str
  | 0, s => s
  | _ + 1, [] => []
  | fuel + 1, c :: rest =>
    if c = '\\' then
      match matchFirstCmd cmds rest with
      | some (body, v) =>
          (if keepBody then body else []) ++ stripCmdsGo cmds keepBody fuel v
      | none => c :: stripCmdsGo cmds keepBody fuel rest
    else
      c :: stripCmdsGo cmds keepBody fuel rest

/-- Model of `re.sub(r'\\(textbf|textit|emph|texttt)\{([^}]+)\}', r'\2', text)`:
replace a formatting command by its argument. -/
def stripTextCmds (s : Str) : Str := stripCmdsGo textCmds true s.length s

/-- Model of `re.sub(r'\\(cite|ref|label)\{[^}]+\}', '', text)`: delete a citation
or reference command entirely. -/
def stripRefCmds (s : Str) : Str := stripCmdsGo refCmds false s.length s

/-- Model of `TextChunker._clean_text`: the four regex passes followed by `strip()`. -/
def cleanText (text : Str) : Str :=
  pyStrip (stripRefCmds (stripTextCmds (collapseSpaces (reduceNewlines text))))

def isSentenceEnd (c : Char) : Bool := c = '.' || c = '!' || c = '?'

def isUpperAZ (c : Char) : Bool := 65 ≤ c.toNat && c.toNat ≤ 90

/-- State machine for `re.split(r'(?<=[.!?])\s+(?=[A-Z])', text)`: `cur` is
the current piece (reversed), `pend` the whitespace run being read
(reversed), and `se` records whether the character immediately before that
run ends a sentence.  A whitespace run splits exactly when it is non-empty,
preceded by `.`/`!`/`?` and followed by an ASCII capital. -/
def splitGo : Str → Str → Bool → Str → List Str
  | cur, pend, _, [] => [(pend ++ cur).reverse]
  | cur, pend, se, c :: rest =>
    if pyIsSpace c then
      splitGo cur (c :: pend) se rest
    else if se && !pend.isEmpty && isUpperAZ c then
      cur.reverse :: splitGo [c] [] (isSentenceEnd c) rest
    else
      splitGo (c :: (pend ++ cur)) [] (isSentenceEnd c) rest

/-- Model of `TextChunker._split_into_sentences`: regex split, then strip each piece
and keep the non-empty ones. -/
def splitIntoSentences (text : Str) : List Str :=
  ((splitGo [] [] false text).map pyStrip).filter (fun s => !s.isEmpty)

def sumLens (l : List Str) : Nat := (l.map List.length).sum

/-- Loop body of `TextChunker._calculate_overlap_sentences`: walk backward
over the just-closed chunk (`rev` is its reversed sentence list), collect
sentences while they still fit the overlap budget, counting one separator
per collected sentence exactly as the Python code does. -/
def overlapGo (overlapSize : Nat) : List Str → List Str → Nat → List Str
  | [], acc, _ => acc
  | s :: rev, acc, size =>
    if size + s.length > overlapSize then acc
    else overlapGo overlapSize rev (s :: acc) (size + s.length + 1)

/-- Model of `TextChunker._calculate_overlap_sentences`. -/
def calculateOverlapSentences (sentences : List Str) (overlapSize : Nat) : List Str :=
  overlapGo overlapSize sentences.reverse [] 0

structure ChunkerCfg where
  chunkSize : Nat := 1000
  chunkOverlap : Nat := 200
  respectSections : Bool := true
deriving DecidableEq, Repr

/-- The sentence-accumulation loop of `TextChunker.chunk_text`, returning
each chunk as its list of sentences (the chunk text is their
space-join). -/
def chunkLoop (cfg : ChunkerCfg) : List Str → List Str → Nat → List (List Str)
  | [], cur, _ => if cur.isEmpty then [] else [cur]
  | s :: rest, cur, curLen =>
    if curLen + s.length > cfg.chunkSize && !cur.isEmpty then
      cur :: chunkLoop cfg rest (calculateOverlapSentences cur cfg.chunkOverlap ++ [s])
        (sumLens (calculateOverlapSentences cur cfg.chunkOverlap) + s.length + 1)
    else
      chunkLoop cfg rest (cur ++ [s]) (curLen + s.length + 1)

structure Chunk where
  text : Str
  chunkIndex : Nat
  source : Str
  sectionTag : Str := []
  startOffset : Nat := 0
  endOffset : Nat := 0
deriving DecidableEq, Repr

/-- Python `" ".join(l)`. -/
def joinSp : List Str → Str
  | [] => []
  | [s] => s
  | s :: rest => s ++ ' ' :: joinSp rest

def chunkSentenceLists (cfg : ChunkerCfg) (text : Str) : List (List Str) :=
  chunkLoop cfg (splitIntoSentences (cleanText text)) [] 0

/-- Model of `TextChunker.chunk_text`. -/
def chunkText (cfg : ChunkerCfg) (text : Str) (source : Str) : List Chunk :=
  if pyStrip text = [] then []
  else
    (chunkSentenceLists cfg text).mapIdx fun i ss =>
      { text := joinSp ss, chunkIndex := i, source := source,
        startOffset := 0, endOffset := (joinSp ss).length }

structure LatexMarker where
  start : Nat
  stop : Nat
  title : Str
  level : Str
deriving DecidableEq, Repr

/-- Model of `re.finditer` for one pattern `\\cmd\{([^}]+)\}`: non-overlapping
matches, resuming after each match end; fuel `s.length` suffices since
every step consumes at least one character. -/
def findMarkersGo (cmd level : Str) : Nat → Nat → Str → List LatexMarker
  | 0, _, _ => []
  | _ + 1, _, [] => []
  | fuel + 1, pos, c :: rest =>
    if c = '\\' then
      match matchOneCmd cmd rest with
      | some (body, v) =>
        let mlen := 1 + cmd.length + 1 + body.length + 1
        ⟨pos, pos + mlen, body, level⟩ :: findMarkersGo cmd level fuel (pos + mlen) v
      | none => findMarkersGo cmd level fuel (pos + 1) rest
    else
      findMarkersGo cmd level fuel (pos + 1) rest

def findMarkers (cmd level : Str) (s : Str) : List LatexMarker :=
  findMarkersGo cmd level s.length 0 s

/-- All section markers of the three levels, merged and stably sorted by
start position, as in `TextChunker._extract_latex_sections`. -/
def allMarkers (s : Str) : List LatexMarker :=
  List.insertionSort (fun a b => a.start ≤ b.start)
    (findMarkers "section".data "section".data s ++
     findMarkers "subsection".data "subsection".data s ++
     findMarkers "subsubsection".data "subsubsection".data s)

/-- Python dict assignment `sections[key] = content`: update in place when
the key exists (keeping its position), append otherwise. -/
def dictSet (m : List (Str × Str)) (k v : Str) : List (Str × Str) :=
  if m.any (fun p => p.1 = k) then
    m.map (fun p => if p.1 = k then (k, v) else p)
  else m ++ [(k, v)]

def sliceBetween (s : Str) (a b : Nat) : Str := (s.drop a).take (b - a)

def sectionKey (title level : Str) : Str :=
  title ++ " (".data ++ level ++ ")".data

/-- Where a marker's content ends: the next marker's start, or the document
end. -/
def extractEnd (latex : Str) : List LatexMarker → Nat
  | next :: _ => next.start
  | [] => latex.length

/-- Content-extraction loop of `TextChunker._extract_latex_sections`: each
marker's content runs to the next marker's start (or the document end), is
cleaned, and is stored under `title (level)` when non-empty. -/
def extractGo (latex : Str) : List LatexMarker → List (Str × Str) → List (Str × Str)
  | [], acc => acc
  | m :: rest, acc =>
    if pyStrip (cleanText (sliceBetween latex m.stop (extractEnd latex rest))) = [] then
      extractGo latex rest acc
    else
      extractGo latex rest
        (dictSet acc (sectionKey m.title m.level)
          (cleanText (sliceBetween latex m.stop (extractEnd latex rest))))

/-- Model of `TextChunker._extract_latex_sections`. -/
def extractLatexSections (latex : Str) : List (Str × Str) :=
  extractGo latex (allMarkers latex) []

/-- Model of `TextChunker.chunk_latex`. -/
def chunkLatex (cfg : ChunkerCfg) (latex : Str) (source : Str) : List Chunk :=
  if cfg.respectSections then
    if !(extractLatexSections latex).isEmpty then
      (((extractLatexSections latex).map fun kv =>
          (chunkText cfg kv.2 source).map fun ch =>
            { ch with sectionTag := kv.1 }).flatten).mapIdx
        fun i ch => { ch with chunkIndex := i }
    else chunkText cfg latex source
  else chunkText cfg latex source

/-! ### Retriever (`retriever.py`) -/

structure DocMetadata where
  source : Option Str := none
  sectionTag : Option Str := none
  chunkIndex : Str := []
  pdfPath : Option Str := none
deriving DecidableEq, Repr

structure VectorDocument where
  id : Str
  text : Str
  metadata : DocMetadata
deriving DecidableEq, Repr

structure SearchResult where
  document : VectorDocument
  score : ℚ
  distance : ℚ := 0
deriving DecidableEq, Repr

/-- Python truthiness of `dict.get(key)` for a string field: missing or
empty strings are falsy. -/
def truthy : Option Str → Bool
  | none => false
  | some s => !s.isEmpty

def pad3 (k : Nat) : Str :=
  (if k < 10 then "00" ++ toString k else if k < 100 then "0" ++ toString k else toString k).data

/-- Round `1000*q` to the nearest integer, ties to even, as float formatting
with `.3f` does (idealized over ℚ).  Computed on the numerator and
denominator: `fl` is the floor of `1000*num/den` and `r` the remainder, so
the fraction part compares to `1/2` as `2*r` compares to `den`. -/
def round1000 (q : ℚ) : Int :=
  if 2 * (1000 * q.num - Int.fdiv (1000 * q.num) q.den * q.den) > (q.den : Int) then
    Int.fdiv (1000 * q.num) q.den + 1
  else if 2 * (1000 * q.num - Int.fdiv (1000 * q.num) q.den * q.den) < (q.den : Int) then
    Int.fdiv (1000 * q.num) q.den
  else if Int.fdiv (1000 * q.num) q.den % 2 = 0 then Int.fdiv (1000 * q.num) q.den
  else Int.fdiv (1000 * q.num) q.den + 1

/-- Python float formatting of the score to three decimal places, on the
model's rational scores. -/
def fmt3 (q : ℚ) : Str :=
  let n := round1000 q
  (if n < 0 then "-".data else []) ++ (toString (n.natAbs / 1000)).data
    ++ ".".data ++ pad3 (n.natAbs % 1000)

/-- The citation header of `Retriever._build_context` for the 1-based hit
number `i`. -/
def chunkHeader (i : Nat) (r : SearchResult) : Str :=
  "\n[Chunk ".data ++ (toString i).data ++
  (match r.document.metadata.source with
   | some s => if !s.isEmpty then " | Source: ".data ++ s else []
   | none => []) ++
  (match r.document.metadata.sectionTag with
   | some s => if !s.isEmpty then " | Section: ".data ++ s else []
   | none => []) ++
  " | Score: ".data ++ fmt3 r.score ++ "]\n".data

/-- Model of the `chunk_text` value (header, document text, newline) built
in `_build_context`. -/
def formattedChunk (i : Nat) (r : SearchResult) : Str :=
  chunkHeader i r ++ r.document.text ++ "\n".data

def sourceOrUnknown (r : SearchResult) : Str :=
  r.document.metadata.source.getD "unknown".data

def sectionAdd (r : SearchResult) : List Str :=
  match r.document.metadata.sectionTag with
  | some s => if !s.isEmpty then [s] else []
  | none => []

/-- The accumulation loop of `Retriever._build_context`: returns the
collected source values, section values and formatted chunk texts.  The
`sources.add`/`sections.add` calls precede the length check, so the hit
that triggers the break still contributes its source and section before
the loop stops. -/
def buildLoop (maxLen : Int) : List SearchResult → Nat → Nat → List Str × List Str × List Str
  | [], _, _ => ([], [], [])
  | r :: rest, i, curLen =>
    if 0 < maxLen ∧ (curLen : Int) + (formattedChunk i r).length > maxLen then
      ([sourceOrUnknown r], sectionAdd r, [])
    else
      (sourceOrUnknown r
         :: (buildLoop maxLen rest (i + 1) (curLen + (formattedChunk i r).length)).1,
       sectionAdd r
         ++ (buildLoop maxLen rest (i + 1) (curLen + (formattedChunk i r).length)).2.1,
       formattedChunk i r
         :: (buildLoop maxLen rest (i + 1) (curLen + (formattedChunk i r).length)).2.2)

/-- Lexicographic (code-point) order on strings, Python `sorted`'s order. -/
def strLe : Str → Str → Bool
  | [], _ => true
  | _ :: _, [] => false
  | a :: as, b :: bs =>
    if a.toNat < b.toNat then true
    else if b.toNat < a.toNat then false
    else strLe as bs

/-- Python `sorted(list(set(xs)))`. -/
def sortedUnique (l : List Str) : List Str :=
  List.insertionSort (fun a b => strLe a b = true) l.dedup

structure RetrievedContext where
  chunks : List SearchResult
  contextText : Str
  sources : List Str
  sections : List Str
  totalChunks : Nat
deriving DecidableEq, Repr

/-- Model of `Retriever._build_context`. -/
def buildContext (maxLen : Int) (results : List SearchResult) : RetrievedContext :=
  { chunks := results.take (buildLoop maxLen results 1 0).2.2.length
    contextText := (buildLoop maxLen results 1 0).2.2.flatten
    sources := sortedUnique (buildLoop maxLen results 1 0).1
    sections := sortedUnique (buildLoop maxLen results 1 0).2.1
    totalChunks := (buildLoop maxLen results 1 0).2.2.length }

structure RetrieverCfg where
  topK : Nat := 5
  scoreThreshold : ℚ := 3/10
  maxContextLength : Int := 8000
deriving DecidableEq, Repr

/-- Python `top_k or self.top_k`: `None` and `0` both fall back to the
retriever default. -/
def resolveTopK (cfg : RetrieverCfg) : Option Nat → Nat
  | some k => if k = 0 then cfg.topK else k
  | none => cfg.topK

def noContextStr : Str := "No relevant context found.".data

def emptyContext : RetrievedContext := ⟨[], noContextStr, [], [], 0⟩

/-- The score-threshold/top-k stage of `Retriever.retrieve`. -/
def filteredHits (cfg : RetrieverCfg) (results : List SearchResult) (tk : Nat) :
    List SearchResult :=
  (results.filter (fun r => cfg.scoreThreshold ≤ r.score)).take tk

/-- Model of `Retriever.retrieve`, with the embedding call and vector-store search
bundled into the fallible `search` collaborator (top-k requested, source
filter). -/
def retrieve (search : Nat → Option Str → Except Unit (List SearchResult))
    (cfg : RetrieverCfg) (query : Str) (filter : Option Str) (topK? : Option Nat) :
    Except Unit RetrievedContext :=
  if pyStrip query = [] then .error ()
  else
    let tk := resolveTopK cfg topK?
    match search (tk * 2) filter with
    | .error e => .error e
    | .ok results =>
      let filtered := filteredHits cfg results tk
      if filtered.isEmpty then .ok emptyContext
      else .ok (buildContext cfg.maxContextLength filtered)

/-- Model of `Retriever.retrieve_from_paper`. -/
def retrieveFromPaper (search : Nat → Option Str → Except Unit (List SearchResult))
    (cfg : RetrieverCfg) (query paperTitle : Str) (topK? : Option Nat) :
    Except Unit RetrievedContext :=
  retrieve search cfg query (some paperTitle) topK?

/-- Descending-score comparison used by
`all_results.sort(key=lambda x: x.score, reverse=True)`. -/
def scoreGe (a b : SearchResult) : Prop := b.score ≤ a.score

instance : DecidableRel scoreGe := fun a b => inferInstanceAs (Decidable (b.score ≤ a.score))

instance : IsTotal SearchResult scoreGe := ⟨fun a b => le_total b.score a.score⟩

instance : IsTrans SearchResult scoreGe := ⟨fun _ _ _ hab hbc => le_trans hbc hab⟩

/-- The hits one paper contributes to the multi-paper pool: the chunks of a
successful per-title retrieval, nothing on a caught failure. -/
def okChunks (search : Nat → Option Str → Except Unit (List SearchResult))
    (cfg : RetrieverCfg) (query : Str) (tk : Nat) (title : Str) : List SearchResult :=
  match retrieveFromPaper search cfg query title (some tk) with
  | .ok ctx => ctx.chunks
  | .error _ => []

/-- Model of `Retriever.retrieve_multi_paper`: pool per-title results (failures
logged and skipped), stable-sort by score descending, truncate to top-k,
assemble context. -/
def retrieveMultiPaper (search : Nat → Option Str → Except Unit (List SearchResult))
    (cfg : RetrieverCfg) (query : Str) (titles : List Str) (topK? : Option Nat) :
    RetrievedContext :=
  let tk := resolveTopK cfg topK?
  let allResults := (titles.map (okChunks search cfg query tk)).flatten
  if allResults.isEmpty then emptyContext
  else buildContext cfg.maxContextLength ((List.insertionSort scoreGe allResults).take tk)

/-! ### FAISS vector store (`vector_store.py`) and indexer (`indexer.py`) -/

structure MetaEntry where
  id : Str
  text : Str
  metadata : DocMetadata
deriving DecidableEq, Repr

/-- Model of `FAISSVectorStore` state: `ntotal` of the FAISS index plus the parallel
`documents_metadata` list. -/
structure FaissState where
  ntotal : Nat
  documentsMetadata : List MetaEntry
deriving DecidableEq, Repr

def faissCount (st : FaissState) : Nat := st.ntotal

/-- Model of `FAISSVectorStore.add_documents`: embeddings are appended to the index
(raising `ntotal`), metadata entries to the list. -/
def faissAddDocuments (st : FaissState) (docs : List VectorDocument) : FaissState :=
  if docs.isEmpty then st
  else
    { ntotal := st.ntotal + docs.length
      documentsMetadata :=
        st.documentsMetadata ++ docs.map (fun d => ⟨d.id, d.text, d.metadata⟩) }

/-- Model of `FAISSVectorStore.delete_by_source`: filter the metadata list, and when
anything matched, `index.reset()` — the surviving documents' embeddings are
never re-added to the index. -/
def faissDeleteBySource (st : FaissState) (source : Str) : FaissState × Nat :=
  let deleted :=
    (st.documentsMetadata.filter (fun m => m.metadata.source = some source)).length
  let newMeta := st.documentsMetadata.filter (fun m => m.metadata.source ≠ some source)
  if deleted = 0 then (st, 0)
  else ({ ntotal := 0, documentsMetadata := newMeta }, deleted)

/-- Vector-store operations as seen by the indexer; `Except` models calls
that may raise. -/
structure VectorStoreOps (σ : Type) where
  addDocuments : σ → List VectorDocument → Except Unit σ
  deleteBySource : σ → Str → Except Unit (σ × Nat)
  count : σ → Nat

def faissStore : VectorStoreOps FaissState :=
  { addDocuments := fun st docs => .ok (faissAddDocuments st docs)
    deleteBySource := fun st s => .ok (faissDeleteBySource st s)
    count := faissCount }

structure IndexEntry where
  numChunks : Nat
  indexedAt : Str
  pdfPath : Str
  embeddingDim : Nat
deriving DecidableEq, Repr

structure IndexerState (σ : Type) where
  store : σ
  indexedPapers : List (Str × IndexEntry)

def lookupEntry (m : List (Str × IndexEntry)) (k : Str) : Option IndexEntry :=
  match m.find? (fun p => p.1 = k) with
  | some p => some p.2
  | none => none

/-- Python dict assignment for the `indexed_papers` map. -/
def entrySet (m : List (Str × IndexEntry)) (k : Str) (v : IndexEntry) :
    List (Str × IndexEntry) :=
  if m.any (fun p => p.1 = k) then m.map (fun p => if p.1 = k then (k, v) else p)
  else m ++ [(k, v)]

/-- The embedding provider: a fallible batch call plus its dimension. -/
structure EmbeddingOps where
  embedBatch : List Str → Except Unit (List Unit)
  dimension : Nat

/-- Step 3 of `DocumentIndexer.index_paper`: build one `VectorDocument`
per (chunk, embedding) pair; `zip` truncates to the shorter list exactly as
Python's does. -/
def buildVectorDocs (genId : Str → Nat → Str) (title : Str) (pdfPath : Option Str)
    (chunks : List Chunk) (embeddings : List Unit) : List VectorDocument :=
  (chunks.zip embeddings).mapIdx fun i ce =>
    { id := genId title i
      text := ce.1.text
      metadata :=
        { source := some title
          sectionTag := some ce.1.sectionTag
          chunkIndex := (toString i).data
          pdfPath := if truthy pdfPath then pdfPath else none } }

/-- Steps 2–7 of `DocumentIndexer.index_paper` (embed, build vector
documents, store, then update the IndexEntry map): the map is only touched
after the vector-store add succeeds. -/
def indexPaperStage2 {σ : Type} (vs : VectorStoreOps σ) (emb : EmbeddingOps)
    (genId : Str → Nat → Str) (timestamp : Str) (st1 : IndexerState σ)
    (title : Str) (pdfPath : Option Str) (chunks : List Chunk) :
    Except Unit Nat × IndexerState σ :=
  match emb.embedBatch (chunks.map Chunk.text) with
  | .error _ => (.error (), st1)
  | .ok embeddings =>
    match vs.addDocuments st1.store (buildVectorDocs genId title pdfPath chunks embeddings) with
    | .error _ => (.error (), st1)
    | .ok store2 =>
      (.ok chunks.length,
       { store := store2,
         indexedPapers :=
           entrySet st1.indexedPapers title
             { numChunks := chunks.length, indexedAt := timestamp,
               pdfPath := pdfPath.getD [], embeddingDim := emb.dimension } })

/-- Steps 1–7 of `DocumentIndexer.index_paper` after the already-indexed
check; `doDelete` is `force_reindex and self.is_indexed(title)`.  State
mutated before a raising call stays mutated, as in Python. -/
def indexPaperCore {σ : Type} (vs : VectorStoreOps σ) (emb : EmbeddingOps)
    (cfg : ChunkerCfg) (genId : Str → Nat → Str) (timestamp : Str)
    (st : IndexerState σ) (title latexContent : Str) (pdfPath : Option Str)
    (doDelete : Bool) : Except Unit Nat × IndexerState σ :=
  match (if doDelete then vs.deleteBySource st.store title else .ok (st.store, 0)) with
  | .error _ => (.error (), st)
  | .ok (store1, _) =>
    if (chunkLatex cfg latexContent title).isEmpty then
      (.ok 0, { store := store1, indexedPapers := st.indexedPapers })
    else
      indexPaperStage2 vs emb genId timestamp
        { store := store1, indexedPapers := st.indexedPapers }
        title pdfPath (chunkLatex cfg latexContent title)

/-- Model of `DocumentIndexer.index_paper`. -/
def indexPaper {σ : Type} (vs : VectorStoreOps σ) (emb : EmbeddingOps)
    (cfg : ChunkerCfg) (genId : Str → Nat → Str) (timestamp : Str)
    (st : IndexerState σ) (title latexContent : Str) (pdfPath : Option Str)
    (forceReindex : Bool) : Except Unit Nat × IndexerState σ :=
  match lookupEntry st.indexedPapers title with
  | some e =>
    if forceReindex then
      indexPaperCore vs emb cfg genId timestamp st title latexContent pdfPath true
    else (.ok e.numChunks, st)
  | none => indexPaperCore vs emb cfg genId timestamp st title latexContent pdfPath false

def sampleEntry : IndexEntry := ⟨7, "t0".data, [], 384⟩

def sampleFaiss : FaissState :=
  ⟨1, [⟨"i1".data, "t1".data, ⟨some "T".data, some [], "0".data, none⟩⟩]⟩

def sampleIdxState : IndexerState FaissState := ⟨sampleFaiss, [("T".data, sampleEntry)]⟩

def embOk : EmbeddingOps := ⟨fun ts => .ok (ts.map fun _ => ()), 384⟩

def embFail : EmbeddingOps := ⟨fun _ => .error (), 384⟩

def genId0 : Str → Nat → Str := fun t i => t ++ (toString i).data

def cfg0 : ChunkerCfg := ⟨1000, 200, true⟩

/-- The formatted chunk texts of a hit list, numbered from `i`. -/
def fmtFrom : Nat → List SearchResult → List Str
  | _, [] => []
  | i, r :: rest => formattedChunk i r :: fmtFrom (i + 1) rest

/-- The (amended) contract of `_build_context` for a positive budget, see
`buildContext_budget`: whole formatted chunks are accumulated in order; the
loop stops before the first chunk whose addition would exceed the budget;
`total_chunks` counts the included chunks and `chunks` is that prefix of
the hit list; the `sources`/`sections` sets are the sorted-unique values of
the included chunks *plus the first excluded chunk* (whose metadata is
recorded before the length check breaks the loop). -/
def buildContextBudgetProp (maxLen : Int) (results : List SearchResult) : Prop :=
  (buildContext maxLen results).totalChunks ≤ results.length ∧
  (buildContext maxLen results).chunks
    = results.take (buildContext maxLen results).totalChunks ∧
  (buildContext maxLen results).contextText
    = ((fmtFrom 1 results).take (buildContext maxLen results).totalChunks).flatten ∧
  (sumLens ((fmtFrom 1 results).take (buildContext maxLen results).totalChunks) : Int)
      ≤ maxLen ∧
  ((buildContext maxLen results).totalChunks < results.length →
    (sumLens ((fmtFrom 1 results).take ((buildContext maxLen results).totalChunks + 1)) : Int)
      > maxLen) ∧
  (buildContext maxLen results).sources
    = sortedUnique ((results.take
        (min ((buildContext maxLen results).totalChunks + 1) results.length)).map
          sourceOrUnknown) ∧
  (buildContext maxLen results).sections
    = sortedUnique (((results.take
        (min ((buildContext maxLen results).totalChunks + 1) results.length)).map
          sectionAdd).flatten)

def cxA : SearchResult :=
  ⟨⟨"ia".data, "xxxx".data, ⟨some "A".data, none, [], none⟩⟩, 0, 0⟩

def cxB : SearchResult :=
  ⟨⟨"ib".data, "yyyy".data, ⟨some "B".data, some "S".data, [], none⟩⟩,
   ⟨1, 2, by norm_num, by norm_num⟩, 0⟩

def q910 : ℚ := ⟨9, 10, by norm_num, by norm_num⟩

def qHalf : ℚ := ⟨1, 2, by norm_num, by norm_num⟩

def q15 : ℚ := ⟨1, 5, by norm_num, by norm_num⟩

def q310 : ℚ := ⟨3, 10, by norm_num, by norm_num⟩

def q45 : ℚ := ⟨4, 5, by norm_num, by norm_num⟩

def hitR (id : String) (src : String) (sc : ℚ) : SearchResult :=
  ⟨⟨id.data, id.data, ⟨some src.data, none, [], none⟩⟩, sc, 0⟩

def hitsC8 : List SearchResult := [hitR "a" "P" q910, hitR "b" "P" qHalf, hitR "c" "P" q15]

def cfgC8 : RetrieverCfg := ⟨5, q310, 8000⟩

def searchC8 : Nat → Option Str → Except Unit (List SearchResult) := fun _ _ => .ok hitsC8

def hitA08 : SearchResult := hitR "a" "A" q45

def hitB09 : SearchResult := hitR "b" "B" q910

def searchMulti : Nat → Option Str → Except Unit (List SearchResult) := fun _ f =>
  match f with
  | some t =>
    if t = "A".data then .ok [hitA08]
    else if t = "B".data then .ok [hitB09]
    else .error ()
  | none => .error ()

def cfgW : ChunkerCfg := ⟨20, 10, true⟩

def textW : Str := "Aaa bbb. Ccc ddd. Eee fff.".data

def lxW : Str := "\\section\x7bA\x7d First one. \\section\x7bA\x7d Second two.".data

/-- Word splitter used to state "equal modulo whitespace collapsing": the
maximal whitespace-free words of a string, in order.  `cur` is the current
word, reversed. -/
def wordsOfAux : Str → Str → List Str
  | cur, [] => if cur.isEmpty then [] else [cur.reverse]
  | cur, c :: rest =>
    if pyIsSpace c then
      if cur.isEmpty then wordsOfAux [] rest
      else cur.reverse :: wordsOfAux [] rest
    else wordsOfAux (c :: cur) rest

def wordsOf (s : Str) : List Str := wordsOfAux [] s

/-- The strip-and-drop-empties post-processing of
`_split_into_sentences`. -/
def fSent (l : List Str) : List Str := (l.map pyStrip).filter (fun s => !s.isEmpty)

/-! ### Theorems -/

theorem dropWhile_length_le {α : Type} (p : α → Bool) (l : List α) :
    (l.dropWhile p).length ≤ l.length := by
  conv_rhs => rw [← List.takeWhile_append_dropWhile p l]
  rw [List.length_append]
  omega

theorem takeWhile_add_dropWhile_length {α : Type} (p : α → Bool) (l : List α) :
    (l.takeWhile p).length + (l.dropWhile p).length = l.length := by
  rw [← List.length_append, List.takeWhile_append_dropWhile]

theorem span_length {α : Type} {p : α → Bool} {l a b : List α}
    (h : l.span p = (a, b)) : a.length + b.length = l.length := by
  rw [List.span_eq_take_drop] at h
  obtain ⟨ha, hb⟩ := Prod.mk.injEq .. ▸ h
  rw [← ha, ← hb]
  exact takeWhile_add_dropWhile_length p l

theorem pyStrip_length_le (s : Str) : (pyStrip s).length ≤ s.length := by
  unfold pyStrip
  calc ((s.dropWhile pyIsSpace).reverse.dropWhile pyIsSpace).reverse.length
      = ((s.dropWhile pyIsSpace).reverse.dropWhile pyIsSpace).length := by simp
    _ ≤ (s.dropWhile pyIsSpace).reverse.length := dropWhile_length_le _ _
    _ = (s.dropWhile pyIsSpace).length := by simp
    _ ≤ s.length := dropWhile_length_le _ _

theorem matchOneCmd_length {cmd s b v : Str}
    (h : matchOneCmd cmd s = some (b, v)) : b.length + v.length + 2 ≤ s.length := by
  unfold matchOneCmd at h
  split at h
  case isTrue hpre =>
    split at h
    case h_1 u heq =>
      split at h
      case h_1 b' bs' v' heq1 =>
        injection h with h'
        obtain ⟨hb, hv⟩ := Prod.mk.injEq .. ▸ h'
        have hlen1 : (s.drop cmd.length).length = u.length + 1 := by rw [heq]; rfl
        have hlen2 : (s.drop cmd.length).length = s.length - cmd.length :=
          List.length_drop _ _
        have hulen := span_length heq1
        subst hb hv
        simp only [List.length_cons] at hulen hlen1 ⊢
        omega
      case h_2 => exact absurd h (by simp)
    case h_2 => exact absurd h (by simp)
  case isFalse => exact absurd h (by simp)

theorem matchFirstCmd_length {cmds : List Str} {s b v : Str}
    (h : matchFirstCmd cmds s = some (b, v)) : b.length + v.length + 2 ≤ s.length := by
  induction cmds with
  | nil => exact absurd h (by simp [matchFirstCmd])
  | cons cmd more ih =>
    unfold matchFirstCmd at h
    split at h
    case h_1 r heq =>
      injection h with h'
      subst h'
      exact matchOneCmd_length heq
    case h_2 => exact ih h

theorem reduceNewlinesGo_length_le (k : Nat) (l : Str) :
    (reduceNewlinesGo k l).length ≤ l.length := by
  induction l generalizing k with
  | nil => simp [reduceNewlinesGo]
  | cons c rest ih =>
    rw [reduceNewlinesGo]
    split
    · split
      · exact Nat.le_succ_of_le (ih _)
      · simpa using ih _
    · simpa using ih _

theorem reduceNewlines_length_le (l : Str) : (reduceNewlines l).length ≤ l.length :=
  reduceNewlinesGo_length_le 0 l

theorem collapseSpacesGo_length_le (b : Bool) (l : Str) :
    (collapseSpacesGo b l).length ≤ l.length := by
  induction l generalizing b with
  | nil => simp [collapseSpacesGo]
  | cons c rest ih =>
    rw [collapseSpacesGo]
    split
    · split
      · exact Nat.le_succ_of_le (ih _)
      · simpa using ih _
    · simpa using ih _

theorem collapseSpaces_length_le (l : Str) : (collapseSpaces l).length ≤ l.length :=
  collapseSpacesGo_length_le false l

theorem stripCmdsGo_length_le (cmds : List Str) (kb : Bool) (fuel : Nat) (l : Str) :
    (stripCmdsGo cmds kb fuel l).length ≤ l.length := by
  induction fuel generalizing l with
  | zero => simp [stripCmdsGo]
  | succ fuel ih =>
    match l with
    | [] => simp [stripCmdsGo]
    | c :: rest =>
      rw [stripCmdsGo]
      split
      · split
        case h_1 body v heq =>
          have hlen := matchFirstCmd_length heq
          have hrec := ih v
          have hbody : (if kb then body else []).length ≤ body.length := by
            split <;> simp
          simp only [List.length_append, List.length_cons]
          omega
        case h_2 =>
          have hrec := ih rest
          simp only [List.length_cons]
          omega
      · have hrec := ih rest
        simp only [List.length_cons]
        omega

theorem stripTextCmds_length_le (l : Str) : (stripTextCmds l).length ≤ l.length :=
  stripCmdsGo_length_le _ _ _ _

theorem stripRefCmds_length_le (l : Str) : (stripRefCmds l).length ≤ l.length :=
  stripCmdsGo_length_le _ _ _ _

theorem cleanText_length_le (text : Str) : (cleanText text).length ≤ text.length := by
  unfold cleanText
  calc (pyStrip (stripRefCmds (stripTextCmds (collapseSpaces (reduceNewlines text))))).length
      ≤ (stripRefCmds (stripTextCmds (collapseSpaces (reduceNewlines text)))).length :=
        pyStrip_length_le _
    _ ≤ (stripTextCmds (collapseSpaces (reduceNewlines text))).length :=
        stripRefCmds_length_le _
    _ ≤ (collapseSpaces (reduceNewlines text)).length := stripTextCmds_length_le _
    _ ≤ (reduceNewlines text).length := collapseSpaces_length_le _
    _ ≤ text.length := reduceNewlines_length_le _

/-- C3: the spec says `deleteBySource` removes exactly the matching records
and leaves everything else intact (`count()` decreases by exactly the
returned value, other sources stay searchable).  The FAISS implementation
violates this: on a store holding one record of source `A` and one of
source `B`, deleting `A` returns 1 but resets the index, so `count()`
drops from 2 to 0 instead of 1, even though `B`'s metadata entry
survives. -/
theorem faissDeleteBySource_count_bug :
    (faissDeleteBySource ⟨2, [⟨"i1".data, "t1".data, ⟨some "A".data, none, [], none⟩⟩,
        ⟨"i2".data, "t2".data, ⟨some "B".data, none, [], none⟩⟩]⟩ "A".data).2 = 1 ∧
    faissCount ⟨2, [⟨"i1".data, "t1".data, ⟨some "A".data, none, [], none⟩⟩,
        ⟨"i2".data, "t2".data, ⟨some "B".data, none, [], none⟩⟩]⟩ = 2 ∧
    faissCount (faissDeleteBySource ⟨2, [⟨"i1".data, "t1".data, ⟨some "A".data, none, [], none⟩⟩,
        ⟨"i2".data, "t2".data, ⟨some "B".data, none, [], none⟩⟩]⟩ "A".data).1 = 0 ∧
    (faissDeleteBySource ⟨2, [⟨"i1".data, "t1".data, ⟨some "A".data, none, [], none⟩⟩,
        ⟨"i2".data, "t2".data, ⟨some "B".data, none, [], none⟩⟩]⟩ "A".data).1.documentsMetadata
      = [⟨"i2".data, "t2".data, ⟨some "B".data, none, [], none⟩⟩] := by
  decide

/-- C4: indexing an already-indexed title without `forceReindex` returns
the stored chunk count and performs no work at all: the whole indexer
state — vector store contents (hence `count()`) and the IndexEntry map —
is returned unchanged, for every store, embedding provider and input. -/
theorem indexPaper_idempotent {σ : Type} (vs : VectorStoreOps σ) (emb : EmbeddingOps)
    (cfg : ChunkerCfg) (genId : Str → Nat → Str) (ts : Str)
    (st : IndexerState σ) (title latexContent : Str) (pdfPath : Option Str)
    (e : IndexEntry) (h : lookupEntry st.indexedPapers title = some e) :
    indexPaper vs emb cfg genId ts st title latexContent pdfPath false
      = (.ok e.numChunks, st) ∧
    vs.count (indexPaper vs emb cfg genId ts st title latexContent pdfPath false).2.store
      = vs.count st.store := by
  unfold indexPaper
  rw [h]
  exact ⟨rfl, rfl⟩

theorem indexPaperStage2_error_frame {σ : Type} (vs : VectorStoreOps σ) (emb : EmbeddingOps)
    (genId : Str → Nat → Str) (ts : Str) (st1 : IndexerState σ)
    (title : Str) (pdfPath : Option Str) (chunks : List Chunk)
    (h : (indexPaperStage2 vs emb genId ts st1 title pdfPath chunks).1 = .error ()) :
    (indexPaperStage2 vs emb genId ts st1 title pdfPath chunks).2.indexedPapers
      = st1.indexedPapers := by
  unfold indexPaperStage2 at h ⊢
  cases hemb : emb.embedBatch (chunks.map Chunk.text) with
  | error e => rfl
  | ok embeddings =>
    rw [hemb] at h
    simp only [] at h ⊢
    cases hadd : vs.addDocuments st1.store
        (buildVectorDocs genId title pdfPath chunks embeddings) with
    | error e => rfl
    | ok store2 =>
      rw [hadd] at h
      exact absurd h (by simp)

theorem indexPaperCore_error_frame {σ : Type} (vs : VectorStoreOps σ) (emb : EmbeddingOps)
    (cfg : ChunkerCfg) (genId : Str → Nat → Str) (ts : Str)
    (st : IndexerState σ) (title latexContent : Str) (pdfPath : Option Str)
    (dd : Bool)
    (h : (indexPaperCore vs emb cfg genId ts st title latexContent pdfPath dd).1
          = .error ()) :
    (indexPaperCore vs emb cfg genId ts st title latexContent pdfPath dd).2.indexedPapers
      = st.indexedPapers := by
  unfold indexPaperCore at h ⊢
  cases hdel : (if dd then vs.deleteBySource st.store title else .ok (st.store, 0)) with
  | error e => rfl
  | ok p =>
    obtain ⟨store1, cnt⟩ := p
    rw [hdel] at h
    simp only [] at h ⊢
    cases hch : (chunkLatex cfg latexContent title).isEmpty with
    | true =>
      rw [hch] at h
      exact absurd h (by simp)
    | false =>
      rw [hch] at h
      simp only [Bool.false_eq_true, if_false] at h
      exact indexPaperStage2_error_frame vs emb genId ts
        ⟨store1, st.indexedPapers⟩ title pdfPath (chunkLatex cfg latexContent title) h

/-- C6: if chunking, batch embedding, or the vector-store add fails,
`index_paper` propagates the error and the IndexEntry map is untouched: an
entry is written only after the vector-store write succeeds. -/
theorem indexPaper_error_atomic {σ : Type} (vs : VectorStoreOps σ) (emb : EmbeddingOps)
    (cfg : ChunkerCfg) (genId : Str → Nat → Str) (ts : Str)
    (st : IndexerState σ) (title latexContent : Str) (pdfPath : Option Str)
    (force : Bool)
    (h : (indexPaper vs emb cfg genId ts st title latexContent pdfPath force).1
          = .error ()) :
    (indexPaper vs emb cfg genId ts st title latexContent pdfPath force).2.indexedPapers
      = st.indexedPapers := by
  unfold indexPaper at h ⊢
  cases hlk : lookupEntry st.indexedPapers title with
  | none =>
    rw [hlk] at h
    simp only [] at h ⊢
    exact indexPaperCore_error_frame vs emb cfg genId ts st title latexContent pdfPath false h
  | some e =>
    rw [hlk] at h
    simp only [] at h ⊢
    cases force with
    | true =>
      simp at h
      exact indexPaperCore_error_frame vs emb cfg genId ts st title latexContent pdfPath true h
    | false =>
      simp at h

theorem faissDeleteBySource_no_source (st : FaissState) (source : Str) :
    (faissDeleteBySource st source).1.documentsMetadata.filter
      (fun m => m.metadata.source = some source) = [] := by
  unfold faissDeleteBySource
  by_cases h :
      (st.documentsMetadata.filter (fun m => m.metadata.source = some source)).length = 0
  · simp only [h, if_true]
    exact List.length_eq_zero.mp h
  · simp only [h, if_false]
    rw [List.filter_filter]
    apply List.filter_eq_nil_iff.mpr
    intro a _
    by_cases hs : a.metadata.source = some source <;> simp [hs]

theorem faissAddDocuments_filter (st : FaissState) (docs : List VectorDocument)
    (p : MetaEntry → Bool) :
    (faissAddDocuments st docs).documentsMetadata.filter p
      = st.documentsMetadata.filter p
        ++ (docs.map (fun d => (⟨d.id, d.text, d.metadata⟩ : MetaEntry))).filter p := by
  unfold faissAddDocuments
  split
  case isTrue hd =>
    rw [List.isEmpty_iff.mp hd]
    simp
  case isFalse => simp [List.filter_append]

theorem buildVectorDocs_source (genId : Str → Nat → Str) (title : Str)
    (pdfPath : Option Str) (chunks : List Chunk) (embeddings : List Unit) :
    ∀ d ∈ buildVectorDocs genId title pdfPath chunks embeddings,
      d.metadata.source = some title := by
  intro d hd
  unfold buildVectorDocs at hd
  rw [List.mapIdx_eq_enum_map] at hd
  obtain ⟨⟨i, ce⟩, _, rfl⟩ := List.mem_map.mp hd
  rfl

theorem buildVectorDocs_length (genId : Str → Nat → Str) (title : Str)
    (pdfPath : Option Str) (chunks : List Chunk) (embeddings : List Unit)
    (h : embeddings.length = chunks.length) :
    (buildVectorDocs genId title pdfPath chunks embeddings).length = chunks.length := by
  unfold buildVectorDocs
  rw [List.length_mapIdx, List.length_zip, h]
  simp

theorem indexPaper_force_eq_empty (emb : EmbeddingOps) (cfg : ChunkerCfg)
    (genId : Str → Nat → Str) (ts : Str) (st : IndexerState FaissState)
    (title latexContent : Str) (pdfPath : Option Str) (e : IndexEntry)
    (hIdx : lookupEntry st.indexedPapers title = some e)
    (hch : (chunkLatex cfg latexContent title).isEmpty = true) :
    indexPaper faissStore emb cfg genId ts st title latexContent pdfPath true
      = (.ok 0, { store := (faissDeleteBySource st.store title).1,
                  indexedPapers := st.indexedPapers }) := by
  unfold indexPaper
  rw [hIdx]
  simp only [if_true]
  unfold indexPaperCore
  simp only [faissStore, hch, if_true]

theorem indexPaper_force_eq (emb : EmbeddingOps) (cfg : ChunkerCfg)
    (genId : Str → Nat → Str) (ts : Str) (st : IndexerState FaissState)
    (title latexContent : Str) (pdfPath : Option Str) (e : IndexEntry)
    (hIdx : lookupEntry st.indexedPapers title = some e)
    (embs : List Unit)
    (hEmb : emb.embedBatch ((chunkLatex cfg latexContent title).map Chunk.text) = .ok embs)
    (hch : (chunkLatex cfg latexContent title).isEmpty = false) :
    indexPaper faissStore emb cfg genId ts st title latexContent pdfPath true
      = (.ok (chunkLatex cfg latexContent title).length,
         { store :=
             faissAddDocuments (faissDeleteBySource st.store title).1
               (buildVectorDocs genId title pdfPath (chunkLatex cfg latexContent title) embs),
           indexedPapers :=
             entrySet st.indexedPapers title
               { numChunks := (chunkLatex cfg latexContent title).length,
                 indexedAt := ts, pdfPath := pdfPath.getD [],
                 embeddingDim := emb.dimension } }) := by
  unfold indexPaper
  rw [hIdx]
  simp only [if_true]
  unfold indexPaperCore indexPaperStage2
  simp only [faissStore, hch, hEmb, Bool.false_eq_true, if_false, if_true]

/-- C5: forced re-indexing of an already-indexed title leaves no orphan
records: afterwards the FAISS store's metadata holds exactly one record per
new chunk tagged with that source, and the call returns the new chunk
count. -/
theorem indexPaper_force_no_orphans (emb : EmbeddingOps) (cfg : ChunkerCfg)
    (genId : Str → Nat → Str) (ts : Str) (st : IndexerState FaissState)
    (title latexContent : Str) (pdfPath : Option Str) (e : IndexEntry)
    (hIdx : lookupEntry st.indexedPapers title = some e)
    (embs : List Unit)
    (hEmb : emb.embedBatch ((chunkLatex cfg latexContent title).map Chunk.text) = .ok embs)
    (hLen : embs.length = (chunkLatex cfg latexContent title).length) :
    ((indexPaper faissStore emb cfg genId ts st title latexContent pdfPath
          true).2.store.documentsMetadata.filter
        (fun m => m.metadata.source = some title)).length
      = (chunkLatex cfg latexContent title).length ∧
    (indexPaper faissStore emb cfg genId ts st title latexContent pdfPath true).1
      = .ok (chunkLatex cfg latexContent title).length := by
  cases hch : (chunkLatex cfg latexContent title).isEmpty with
  | true =>
    rw [indexPaper_force_eq_empty emb cfg genId ts st title latexContent pdfPath e hIdx hch]
    rw [List.isEmpty_iff.mp hch]
    constructor
    · simp only [List.length_nil]
      rw [faissDeleteBySource_no_source]
      rfl
    · rfl
  | false =>
    rw [indexPaper_force_eq emb cfg genId ts st title latexContent pdfPath e hIdx embs hEmb hch]
    refine ⟨?_, rfl⟩
    simp only []
    rw [faissAddDocuments_filter, faissDeleteBySource_no_source, List.nil_append]
    rw [List.filter_eq_self.mpr]
    · rw [List.length_map]
      exact buildVectorDocs_length genId title pdfPath _ embs hLen
    · intro a ha
      obtain ⟨d, hd, rfl⟩ := List.mem_map.mp ha
      have := buildVectorDocs_source genId title pdfPath _ embs d hd
      simpa using this

theorem indexPaper_idempotent_witness :
    lookupEntry sampleIdxState.indexedPapers "T".data = some sampleEntry ∧
    (indexPaper faissStore embOk cfg0 genId0 "ts".data sampleIdxState "T".data
        "Hello there.".data none false
      = (.ok 7, sampleIdxState) ∧
     faissStore.count (indexPaper faissStore embOk cfg0 genId0 "ts".data sampleIdxState
        "T".data "Hello there.".data none false).2.store
      = faissStore.count sampleIdxState.store) :=
  ⟨rfl, indexPaper_idempotent faissStore embOk cfg0 genId0 "ts".data sampleIdxState
      "T".data "Hello there.".data none sampleEntry rfl⟩

theorem indexPaper_error_atomic_witness :
    (indexPaper faissStore embFail cfg0 genId0 "ts".data sampleIdxState "T".data
        "Hello there.".data none true).1 = .error () ∧
    (indexPaper faissStore embFail cfg0 genId0 "ts".data sampleIdxState "T".data
        "Hello there.".data none true).2.indexedPapers = sampleIdxState.indexedPapers :=
  ⟨rfl, indexPaper_error_atomic faissStore embFail cfg0 genId0 "ts".data sampleIdxState
      "T".data "Hello there.".data none true rfl⟩

theorem indexPaper_force_no_orphans_witness :
    lookupEntry sampleIdxState.indexedPapers "T".data = some sampleEntry ∧
    embOk.embedBatch ((chunkLatex cfg0 "Hi all. Bye now.".data "T".data).map Chunk.text)
      = .ok [()] ∧
    ([()].length = (chunkLatex cfg0 "Hi all. Bye now.".data "T".data).length) ∧
    (((indexPaper faissStore embOk cfg0 genId0 "ts".data sampleIdxState "T".data
          "Hi all. Bye now.".data none true).2.store.documentsMetadata.filter
        (fun m => m.metadata.source = some "T".data)).length
      = (chunkLatex cfg0 "Hi all. Bye now.".data "T".data).length ∧
     (indexPaper faissStore embOk cfg0 genId0 "ts".data sampleIdxState "T".data
        "Hi all. Bye now.".data none true).1
      = .ok (chunkLatex cfg0 "Hi all. Bye now.".data "T".data).length) :=
  ⟨rfl, rfl, rfl,
   indexPaper_force_no_orphans embOk cfg0 genId0 "ts".data sampleIdxState "T".data
     "Hi all. Bye now.".data none sampleEntry rfl [()] rfl rfl⟩

theorem sumLens_cons (x : Str) (l : List Str) :
    sumLens (x :: l) = x.length + sumLens l := by simp [sumLens]

theorem fmtFrom_length (i : Nat) (rs : List SearchResult) :
    (fmtFrom i rs).length = rs.length := by
  induction rs generalizing i with
  | nil => rfl
  | cons r rest ih => simp [fmtFrom, ih]

theorem buildLoop_spec (maxLen : Int) (hpos : 0 < maxLen)
    (rs : List SearchResult) : ∀ (i curLen : Nat),
    ∃ k, k ≤ rs.length ∧
      buildLoop maxLen rs i curLen
        = ((rs.take (min (k + 1) rs.length)).map sourceOrUnknown,
           ((rs.take (min (k + 1) rs.length)).map sectionAdd).flatten,
           (fmtFrom i rs).take k) ∧
      ((curLen : Int) + sumLens ((fmtFrom i rs).take k) ≤ maxLen ∨ k = 0) ∧
      (k < rs.length →
        (curLen : Int) + sumLens ((fmtFrom i rs).take (k + 1)) > maxLen) := by
  induction rs with
  | nil =>
    intro i curLen
    exact ⟨0, by simp [buildLoop, fmtFrom]⟩
  | cons r rest ih =>
    intro i curLen
    rw [buildLoop]
    by_cases hbr : (curLen : Int) + (formattedChunk i r).length > maxLen
    · rw [if_pos ⟨hpos, hbr⟩]
      refine ⟨0, Nat.zero_le _, ?_, Or.inr rfl, ?_⟩
      · have hmin : min 1 (rest.length + 1) = 1 := by omega
        simp [List.length_cons, hmin]
      · intro _
        have hs : sumLens ((fmtFrom i (r :: rest)).take 1)
            = (formattedChunk i r).length := by
          simp [fmtFrom, sumLens]
        rw [Nat.zero_add, hs]
        exact hbr
    · rw [if_neg (fun hc => hbr hc.2)]
      obtain ⟨k, hk, heq, hsum, hnext⟩ := ih (i + 1) (curLen + (formattedChunk i r).length)
      have hmin2 : min (k + 1 + 1) (rest.length + 1) = min (k + 1) rest.length + 1 := by
        omega
      refine ⟨k + 1, by simpa using Nat.succ_le_succ hk, ?_, ?_, ?_⟩
      · rw [heq]
        simp only [List.length_cons, hmin2, List.take_succ_cons, List.map_cons,
          List.flatten_cons, fmtFrom]
      · have hfit : (curLen : Int) + (formattedChunk i r).length ≤ maxLen := by omega
        rcases hsum with hsum | hk0
        · left
          rw [fmtFrom, List.take_succ_cons, sumLens_cons]
          push_cast at hsum ⊢
          omega
        · left
          subst hk0
          rw [fmtFrom, List.take_succ_cons, List.take_zero, sumLens_cons]
          simpa using hfit
      · intro hlt
        have hlt' : k < rest.length := by simpa using hlt
        have := hnext hlt'
        rw [fmtFrom, List.take_succ_cons, sumLens_cons]
        push_cast at this ⊢
        omega

/-- C1 (amended): `_build_context` respects the character budget without
splitting a chunk; provenance sets cover the included chunks and the first
excluded one. -/
theorem buildContext_budget (maxLen : Int) (results : List SearchResult)
    (hpos : 0 < maxLen) : buildContextBudgetProp maxLen results := by
  obtain ⟨k, hk, heq, hsum, hnext⟩ := buildLoop_spec maxLen hpos results 1 0
  have htc : (buildContext maxLen results).totalChunks = k := by
    show (buildLoop maxLen results 1 0).2.2.length = k
    rw [heq]
    simp only []
    rw [List.length_take, fmtFrom_length]
    omega
  unfold buildContextBudgetProp
  rw [htc]
  refine ⟨hk, ?_, ?_, ?_, ?_, ?_, ?_⟩
  · show results.take (buildLoop maxLen results 1 0).2.2.length = results.take k
    rw [heq]
    simp only []
    rw [List.length_take, fmtFrom_length]
    congr 1
    omega
  · show (buildLoop maxLen results 1 0).2.2.flatten = _
    rw [heq]
  · rcases hsum with h | h
    · simpa using h
    · subst h
      simp only [List.take_zero, sumLens]
      simpa using le_of_lt hpos
  · intro hlt
    have := hnext hlt
    simpa using this
  · show sortedUnique (buildLoop maxLen results 1 0).1 = _
    rw [heq]
  · show sortedUnique (buildLoop maxLen results 1 0).2.1 = _
    rw [heq]

/-- C1 counterexample to the claim as stated: with a budget of 60 only the
first hit (source `A`, 43 formatted characters) is included, yet `sources`
also reports the excluded second hit's source `B` (and `sections` its
section `S`), because `_build_context` records a hit's metadata before the
length check that breaks the loop. -/
theorem buildContext_sources_excluded_chunk :
    (0 : Int) < 60 ∧
    (buildContext 60 [cxA, cxB]).totalChunks = 1 ∧
    (buildContext 60 [cxA, cxB]).chunks = [cxA] ∧
    (buildContext 60 [cxA, cxB]).sources = ["A".data, "B".data] ∧
    (buildContext 60 [cxA, cxB]).sections = ["S".data] ∧
    (buildContext 60 [cxA, cxB]).sources
      ≠ sortedUnique ((buildContext 60 [cxA, cxB]).chunks.map sourceOrUnknown) := by
  decide

theorem buildContext_budget_witness :
    (0 : Int) < 60 ∧ buildContextBudgetProp 60 [cxA, cxB] :=
  ⟨by decide, buildContext_budget 60 [cxA, cxB] (by decide)⟩

/-- C8: with a non-empty query and a descending-by-score hit list from the
store (requested with 2×topK candidates), `retrieve` keeps exactly the
hits scoring at least the threshold, truncates to topK, and preserves the
store's order: the kept list is an order-preserving sublist of the hits,
still sorted, of length ≤ topK, all its members pass the threshold, and a
passing hit is only ever dropped by the topK truncation. -/
theorem retrieve_threshold (search : Nat → Option Str → Except Unit (List SearchResult))
    (cfg : RetrieverCfg) (query : Str) (filter : Option Str) (topK? : Option Nat)
    (hits : List SearchResult)
    (hq : ¬ pyStrip query = [])
    (hsearch : search (resolveTopK cfg topK? * 2) filter = .ok hits)
    (hsorted : hits.Pairwise scoreGe) :
    retrieve search cfg query filter topK?
      = .ok (if (filteredHits cfg hits (resolveTopK cfg topK?)).isEmpty then emptyContext
             else buildContext cfg.maxContextLength
                    (filteredHits cfg hits (resolveTopK cfg topK?))) ∧
    (filteredHits cfg hits (resolveTopK cfg topK?)).Sublist hits ∧
    (filteredHits cfg hits (resolveTopK cfg topK?)).Pairwise scoreGe ∧
    (filteredHits cfg hits (resolveTopK cfg topK?)).length ≤ resolveTopK cfg topK? ∧
    (∀ r ∈ filteredHits cfg hits (resolveTopK cfg topK?), cfg.scoreThreshold ≤ r.score) ∧
    (∀ r ∈ hits, cfg.scoreThreshold ≤ r.score →
      r ∈ filteredHits cfg hits (resolveTopK cfg topK?)
        ∨ (filteredHits cfg hits (resolveTopK cfg topK?)).length = resolveTopK cfg topK?) := by
  have hsub : (filteredHits cfg hits (resolveTopK cfg topK?)).Sublist hits :=
    List.Sublist.trans (List.take_sublist _ _) (List.filter_sublist _)
  refine ⟨?_, hsub, List.Pairwise.sublist hsub hsorted, List.length_take_le _ _, ?_, ?_⟩
  · unfold retrieve
    rw [if_neg hq]
    simp only []
    rw [hsearch]
    simp only []
    split <;> rfl
  · intro r hr
    unfold filteredHits at hr
    have hr' := List.mem_filter.mp (List.take_subset _ _ hr)
    simpa using hr'.2
  · intro r hr hscore
    by_cases hle :
        (hits.filter (fun r => cfg.scoreThreshold ≤ r.score)).length ≤ resolveTopK cfg topK?
    · left
      unfold filteredHits
      rw [List.take_of_length_le hle]
      exact List.mem_filter.mpr ⟨hr, by simpa using hscore⟩
    · right
      unfold filteredHits
      rw [List.length_take]
      omega

theorem retrieve_threshold_witness :
    (¬ pyStrip "Q".data = []) ∧
    searchC8 (resolveTopK cfgC8 none * 2) none = .ok hitsC8 ∧
    hitsC8.Pairwise scoreGe ∧
    filteredHits cfgC8 hitsC8 (resolveTopK cfgC8 none)
      = [hitR "a" "P" q910, hitR "b" "P" qHalf] ∧
    (retrieve searchC8 cfgC8 "Q".data none none
        = .ok (if (filteredHits cfgC8 hitsC8 (resolveTopK cfgC8 none)).isEmpty then emptyContext
               else buildContext cfgC8.maxContextLength
                      (filteredHits cfgC8 hitsC8 (resolveTopK cfgC8 none))) ∧
     (filteredHits cfgC8 hitsC8 (resolveTopK cfgC8 none)).Sublist hitsC8 ∧
     (filteredHits cfgC8 hitsC8 (resolveTopK cfgC8 none)).Pairwise scoreGe ∧
     (filteredHits cfgC8 hitsC8 (resolveTopK cfgC8 none)).length ≤ resolveTopK cfgC8 none ∧
     (∀ r ∈ filteredHits cfgC8 hitsC8 (resolveTopK cfgC8 none), cfgC8.scoreThreshold ≤ r.score) ∧
     (∀ r ∈ hitsC8, cfgC8.scoreThreshold ≤ r.score →
       r ∈ filteredHits cfgC8 hitsC8 (resolveTopK cfgC8 none)
         ∨ (filteredHits cfgC8 hitsC8 (resolveTopK cfgC8 none)).length
             = resolveTopK cfgC8 none)) :=
  ⟨by decide, rfl, by decide, by decide,
   retrieve_threshold searchC8 cfgC8 "Q".data none none hitsC8 (by decide) rfl (by decide)⟩

/-- C7: multi-source retrieval pools the per-title hits (a failing title is
caught and contributes nothing), re-sorts the pool by score descending,
truncates to topK, and assembles the context from that pooled truncated
set. -/
theorem retrieveMulti_pooled (search : Nat → Option Str → Except Unit (List SearchResult))
    (cfg : RetrieverCfg) (query : Str) (titles : List Str) (topK? : Option Nat)
    (hne : (titles.map (okChunks search cfg query (resolveTopK cfg topK?))).flatten ≠ []) :
    ∃ sorted : List SearchResult,
      sorted.Perm (titles.map (okChunks search cfg query (resolveTopK cfg topK?))).flatten ∧
      sorted.Pairwise scoreGe ∧
      retrieveMultiPaper search cfg query titles topK?
        = buildContext cfg.maxContextLength (sorted.take (resolveTopK cfg topK?)) ∧
      (∀ t ∈ titles, ∀ e : Unit,
        retrieveFromPaper search cfg query t (some (resolveTopK cfg topK?)) = .error e →
        okChunks search cfg query (resolveTopK cfg topK?) t = []) := by
  refine ⟨List.insertionSort scoreGe
      ((titles.map (okChunks search cfg query (resolveTopK cfg topK?))).flatten),
    List.perm_insertionSort _ _, List.sorted_insertionSort _ _, ?_, ?_⟩
  · unfold retrieveMultiPaper
    simp only []
    rw [if_neg (by simpa [List.isEmpty_iff] using hne)]
  · intro t _ e herr
    unfold okChunks
    rw [herr]

theorem retrieveMulti_pooled_witness :
    ((["A".data, "B".data, "C".data].map
        (okChunks searchMulti cfgC8 "Q".data (resolveTopK cfgC8 (some 1)))).flatten ≠ []) ∧
    (∃ sorted : List SearchResult,
      sorted.Perm ((["A".data, "B".data, "C".data].map
          (okChunks searchMulti cfgC8 "Q".data (resolveTopK cfgC8 (some 1)))).flatten) ∧
      sorted.Pairwise scoreGe ∧
      retrieveMultiPaper searchMulti cfgC8 "Q".data ["A".data, "B".data, "C".data] (some 1)
        = buildContext cfgC8.maxContextLength (sorted.take (resolveTopK cfgC8 (some 1))) ∧
      (∀ t ∈ ["A".data, "B".data, "C".data], ∀ e : Unit,
        retrieveFromPaper searchMulti cfgC8 "Q".data t
            (some (resolveTopK cfgC8 (some 1))) = .error e →
        okChunks searchMulti cfgC8 "Q".data (resolveTopK cfgC8 (some 1)) t = [])) ∧
    (retrieveMultiPaper searchMulti cfgC8 "Q".data
        ["A".data, "B".data, "C".data] (some 1)).chunks = [hitB09] :=
  ⟨by decide,
   retrieveMulti_pooled searchMulti cfgC8 "Q".data
     ["A".data, "B".data, "C".data] (some 1) (by decide),
   by decide⟩

theorem overlapGo_take (k : Nat) :
    ∀ (rev acc : List Str) (size : Nat),
      ∃ m, overlapGo k rev acc size = (rev.take m).reverse ++ acc := by
  intro rev
  induction rev with
  | nil => exact fun acc size => ⟨0, rfl⟩
  | cons s rev ih =>
    intro acc size
    rw [overlapGo]
    split
    · exact ⟨0, rfl⟩
    · obtain ⟨m, hm⟩ := ih (s :: acc) (size + s.length + 1)
      refine ⟨m + 1, ?_⟩
      rw [hm, List.take_succ_cons, List.reverse_cons, List.append_assoc]
      rfl

theorem calculateOverlapSentences_suffix (l : List Str) (k : Nat) :
    calculateOverlapSentences l k <:+ l := by
  obtain ⟨m, hm⟩ := overlapGo_take k l.reverse [] 0
  unfold calculateOverlapSentences
  rw [hm, List.append_nil]
  exact ⟨(l.reverse.drop m).reverse,
    by rw [← List.reverse_append, List.take_append_drop, List.reverse_reverse]⟩

theorem overlapGo_budget (k : Nat) :
    ∀ (rev acc : List Str) (size : Nat),
      size = sumLens acc + acc.length →
      (acc ≠ [] → sumLens acc + acc.length ≤ k + 1) →
      (overlapGo k rev acc size ≠ [] →
        sumLens (overlapGo k rev acc size) + (overlapGo k rev acc size).length ≤ k + 1) := by
  intro rev
  induction rev with
  | nil => exact fun acc size _ h2 => by rw [overlapGo]; exact h2
  | cons s rev ih =>
    intro acc size h1 h2
    rw [overlapGo]
    split
    · exact h2
    case isFalse hfit =>
      apply ih (s :: acc) (size + s.length + 1)
      · rw [sumLens_cons, List.length_cons]
        omega
      · intro _
        rw [sumLens_cons, List.length_cons]
        omega

theorem joinSp_length_cons (x : Str) (l : List Str) :
    (joinSp (x :: l)).length = x.length + sumLens l + l.length := by
  induction l generalizing x with
  | nil => simp [joinSp, sumLens]
  | cons y l ih =>
    show (x ++ ' ' :: joinSp (y :: l)).length = _
    rw [List.length_append, List.length_cons, ih, sumLens_cons, List.length_cons]
    omega

theorem calculateOverlapSentences_length (l : List Str) (k : Nat) :
    (joinSp (calculateOverlapSentences l k)).length ≤ k := by
  have hb := overlapGo_budget k l.reverse [] 0 (by simp [sumLens]) (by simp)
  unfold calculateOverlapSentences
  cases hov : overlapGo k l.reverse [] 0 with
  | nil => simp [joinSp]
  | cons x rest =>
    have := hb (by rw [hov]; simp)
    rw [hov] at this
    rw [joinSp_length_cons]
    rw [sumLens_cons, List.length_cons] at this
    omega

theorem chunkLoop_head (cfg : ChunkerCfg) :
    ∀ (sents cur : List Str) (curLen : Nat), cur ≠ [] →
      ∃ t, (chunkLoop cfg sents cur curLen).head? = some (cur ++ t) := by
  intro sents
  induction sents with
  | nil =>
    intro cur curLen hc
    rw [chunkLoop]
    rw [if_neg (by simpa [List.isEmpty_iff] using hc)]
    exact ⟨[], by simp⟩
  | cons s rest ih =>
    intro cur curLen hc
    rw [chunkLoop]
    split
    · exact ⟨[], by simp⟩
    · obtain ⟨t, ht⟩ := ih (cur ++ [s]) (curLen + s.length + 1) (by simp)
      exact ⟨[s] ++ t, by rw [ht, List.append_assoc]⟩

theorem chunkLoop_chain (cfg : ChunkerCfg) :
    ∀ (sents cur : List Str) (curLen : Nat),
      List.Chain' (fun a b => calculateOverlapSentences a cfg.chunkOverlap <+: b)
        (chunkLoop cfg sents cur curLen) := by
  intro sents
  induction sents with
  | nil =>
    intro cur curLen
    rw [chunkLoop]
    split
    · exact List.chain'_nil
    · exact List.chain'_singleton _
  | cons s rest ih =>
    intro cur curLen
    rw [chunkLoop]
    split
    · refine List.Chain'.cons' (ih _ _) ?_
      intro y hy
      obtain ⟨t, ht⟩ := chunkLoop_head cfg rest
        (calculateOverlapSentences cur cfg.chunkOverlap ++ [s])
        (sumLens (calculateOverlapSentences cur cfg.chunkOverlap) + s.length + 1)
        (by simp)
      rw [ht] at hy
      have hy' : calculateOverlapSentences cur cfg.chunkOverlap ++ s :: t = y := by
        simpa using hy
      rw [← hy']
      exact ⟨s :: t, rfl⟩
    · exact ih _ _

theorem dropWhile_eq_nil_all {α : Type} {p : α → Bool} {l : List α}
    (h : l.dropWhile p = []) : ∀ c ∈ l, p c := by
  induction l with
  | nil => simp
  | cons c rest ih =>
    rw [List.dropWhile_cons] at h
    split at h
    case isTrue hpc =>
      intro d hd
      rcases List.mem_cons.mp hd with rfl | hd'
      · exact hpc
      · exact ih h d hd'
    case isFalse => exact absurd h (by simp)

theorem pyStrip_nil_all {s : Str} (h : pyStrip s = []) : ∀ c ∈ s, pyIsSpace c := by
  unfold pyStrip at h
  rw [List.reverse_eq_nil_iff] at h
  have h2 := dropWhile_eq_nil_all h
  intro c hc
  rw [← List.takeWhile_append_dropWhile pyIsSpace s] at hc
  rcases List.mem_append.mp hc with h3 | h3
  · exact List.mem_takeWhile_imp h3
  · exact h2 c (List.mem_reverse.mpr h3)

theorem allws_pyStrip_nil {s : Str} (h : ∀ c ∈ s, pyIsSpace c) : pyStrip s = [] := by
  unfold pyStrip
  rw [List.dropWhile_eq_nil_iff.mpr h]
  rfl

theorem reduceNewlinesGo_allws {l : Str} (h : ∀ c ∈ l, pyIsSpace c) (k : Nat) :
    ∀ c ∈ reduceNewlinesGo k l, pyIsSpace c := by
  induction l generalizing k with
  | nil => simp [reduceNewlinesGo]
  | cons c rest ih =>
    rw [reduceNewlinesGo]
    have hc : pyIsSpace c = true := h c (by simp)
    have hr : ∀ d ∈ rest, pyIsSpace d := fun d hd => h d (by simp [hd])
    split
    · split
      · exact ih hr _
      · intro d hd
        rcases List.mem_cons.mp hd with rfl | hd'
        · rfl
        · exact ih hr _ d hd'
    · intro d hd
      rcases List.mem_cons.mp hd with rfl | hd'
      · exact hc
      · exact ih hr _ d hd'

theorem collapseSpacesGo_allws {l : Str} (h : ∀ c ∈ l, pyIsSpace c) (b : Bool) :
    ∀ c ∈ collapseSpacesGo b l, pyIsSpace c := by
  induction l generalizing b with
  | nil => simp [collapseSpacesGo]
  | cons c rest ih =>
    rw [collapseSpacesGo]
    have hc : pyIsSpace c = true := h c (by simp)
    have hr : ∀ d ∈ rest, pyIsSpace d := fun d hd => h d (by simp [hd])
    split
    · split
      · exact ih hr _
      · intro d hd
        rcases List.mem_cons.mp hd with rfl | hd'
        · rfl
        · exact ih hr _ d hd'
    · intro d hd
      rcases List.mem_cons.mp hd with rfl | hd'
      · exact hc
      · exact ih hr _ d hd'

theorem stripCmdsGo_allws (cmds : List Str) (kb : Bool) :
    ∀ (fuel : Nat) {l : Str}, (∀ c ∈ l, pyIsSpace c) →
      ∀ c ∈ stripCmdsGo cmds kb fuel l, pyIsSpace c := by
  intro fuel
  induction fuel with
  | zero => exact fun h => h
  | succ fuel ih =>
    intro l h
    match l with
    | [] => simp [stripCmdsGo]
    | c :: rest =>
      rw [stripCmdsGo]
      have hc : pyIsSpace c = true := h c (by simp)
      have hb : ¬ c = '\\' := by
        intro hb
        rw [hb] at hc
        simp [pyIsSpace] at hc
      rw [if_neg hb]
      intro d hd
      rcases List.mem_cons.mp hd with rfl | hd'
      · exact hc
      · exact ih (fun x hx => h x (by simp [hx])) d hd'

theorem cleanText_nil_of_strip_nil {text : Str} (h : pyStrip text = []) :
    cleanText text = [] := by
  have h0 := pyStrip_nil_all h
  unfold cleanText stripRefCmds stripTextCmds collapseSpaces reduceNewlines
  exact allws_pyStrip_nil
    (stripCmdsGo_allws refCmds false _
      (stripCmdsGo_allws textCmds true _
        (collapseSpacesGo_allws (reduceNewlinesGo_allws h0 0) false)))

theorem chunkSentenceLists_nil (cfg : ChunkerCfg) {text : Str}
    (h : cleanText text = []) : chunkSentenceLists cfg text = [] := by
  unfold chunkSentenceLists
  rw [h]
  rfl

theorem chunkText_map_text (cfg : ChunkerCfg) (text source : Str) :
    (chunkText cfg text source).map Chunk.text
      = (chunkSentenceLists cfg text).map joinSp := by
  unfold chunkText
  split
  case isTrue h =>
    rw [chunkSentenceLists_nil cfg (cleanText_nil_of_strip_nil h)]
    rfl
  case isFalse =>
    rw [List.mapIdx_eq_enum_map, List.map_map]
    conv_rhs => rw [← List.enum_map_snd (chunkSentenceLists cfg text), List.map_map]
    rfl

/-- C2: overlap invariant of plain-mode chunking.  For consecutive chunks
`i` and `i+1` (as sentence lists), the overlap set computed from chunk `i`
is a prefix of chunk `i+1`, a contiguous suffix of chunk `i` made of whole
sentences, and its joined character length is at most `chunkOverlap`; each
chunk's text is the space-join of its sentence list. -/
theorem chunk_overlap_invariant (cfg : ChunkerCfg) (text source : Str) (i : Nat)
    (h : i + 1 < (chunkSentenceLists cfg text).length) :
    calculateOverlapSentences ((chunkSentenceLists cfg text).get ⟨i, by omega⟩)
        cfg.chunkOverlap <+: (chunkSentenceLists cfg text).get ⟨i + 1, h⟩ ∧
    calculateOverlapSentences ((chunkSentenceLists cfg text).get ⟨i, by omega⟩)
        cfg.chunkOverlap <:+ (chunkSentenceLists cfg text).get ⟨i, by omega⟩ ∧
    (joinSp (calculateOverlapSentences ((chunkSentenceLists cfg text).get ⟨i, by omega⟩)
        cfg.chunkOverlap)).length ≤ cfg.chunkOverlap ∧
    (chunkText cfg text source).map Chunk.text
      = (chunkSentenceLists cfg text).map joinSp := by
  refine ⟨?_, calculateOverlapSentences_suffix _ _, calculateOverlapSentences_length _ _,
    chunkText_map_text cfg text source⟩
  have hch := chunkLoop_chain cfg (splitIntoSentences (cleanText text)) [] 0
  have hlen : chunkSentenceLists cfg text
      = chunkLoop cfg (splitIntoSentences (cleanText text)) [] 0 := rfl
  exact List.chain'_iff_get.mp hch i (by rw [← hlen]; omega)

theorem chunk_overlap_invariant_witness :
    0 + 1 < (chunkSentenceLists cfgW textW).length ∧
    (calculateOverlapSentences ((chunkSentenceLists cfgW textW).get ⟨0, by decide⟩)
        cfgW.chunkOverlap <+: (chunkSentenceLists cfgW textW).get ⟨0 + 1, by decide⟩ ∧
     calculateOverlapSentences ((chunkSentenceLists cfgW textW).get ⟨0, by decide⟩)
        cfgW.chunkOverlap <:+ (chunkSentenceLists cfgW textW).get ⟨0, by decide⟩ ∧
     (joinSp (calculateOverlapSentences ((chunkSentenceLists cfgW textW).get ⟨0, by decide⟩)
        cfgW.chunkOverlap)).length ≤ cfgW.chunkOverlap ∧
     (chunkText cfgW textW "src".data).map Chunk.text
       = (chunkSentenceLists cfgW textW).map joinSp) :=
  ⟨by decide, chunk_overlap_invariant cfgW textW "src".data 0 (by decide)⟩

/-- C10 (implicit behaviour): structured-mode section bodies are keyed by
`title (level)` in a dict, so when a document's markers are two sections
with the same title and level and both cleaned bodies are non-empty, the
later body overwrites the earlier one: the sections map holds only the
later body, `chunk_latex` chunks only that body (the earlier content never
reaches the index), and a section whose cleaned body is empty is omitted
entirely. -/
theorem chunkLatex_duplicate_section (cfg : ChunkerCfg) (latex source : Str)
    (m1 m2 : LatexMarker)
    (hm : allMarkers latex = [m1, m2])
    (hkey : sectionKey m1.title m1.level = sectionKey m2.title m2.level)
    (hrs : cfg.respectSections = true)
    (hne1 : ¬ pyStrip (cleanText (sliceBetween latex m1.stop m2.start)) = [])
    (hne2 : ¬ pyStrip (cleanText (sliceBetween latex m2.stop latex.length)) = []) :
    extractLatexSections latex
      = [(sectionKey m2.title m2.level,
          cleanText (sliceBetween latex m2.stop latex.length))] ∧
    chunkLatex cfg latex source
      = (((chunkText cfg (cleanText (sliceBetween latex m2.stop latex.length)) source).map
            fun ch => { ch with sectionTag := sectionKey m2.title m2.level }).mapIdx
          fun i ch => { ch with chunkIndex := i }) ∧
    (∀ latex' : Str, ∀ m : LatexMarker, allMarkers latex' = [m] →
      pyStrip (cleanText (sliceBetween latex' m.stop latex'.length)) = [] →
      extractLatexSections latex' = []) := by
  have hext : extractLatexSections latex
      = [(sectionKey m2.title m2.level,
          cleanText (sliceBetween latex m2.stop latex.length))] := by
    unfold extractLatexSections
    rw [hm]
    rw [extractGo, show extractEnd latex [m2] = m2.start from rfl, if_neg hne1,
      extractGo, show extractEnd latex [] = latex.length from rfl, if_neg hne2, extractGo]
    have h1 : dictSet ([] : List (Str × Str)) (sectionKey m1.title m1.level)
        (cleanText (sliceBetween latex m1.stop m2.start))
        = [(sectionKey m1.title m1.level,
            cleanText (sliceBetween latex m1.stop m2.start))] := rfl
    rw [h1, ← hkey]
    simp [dictSet]
  refine ⟨hext, ?_, ?_⟩
  · unfold chunkLatex
    rw [hrs, if_pos rfl, hext]
    simp
  · intro latex' m hm' hempty
    unfold extractLatexSections
    rw [hm']
    rw [extractGo, show extractEnd latex' [] = latex'.length from rfl, if_pos hempty,
      extractGo]

theorem chunkLatex_duplicate_section_witness :
    allMarkers lxW = [⟨0, 11, "A".data, "section".data⟩, ⟨23, 34, "A".data, "section".data⟩] ∧
    sectionKey "A".data "section".data = sectionKey "A".data "section".data ∧
    cfg0.respectSections = true ∧
    (¬ pyStrip (cleanText (sliceBetween lxW 11 23)) = []) ∧
    (¬ pyStrip (cleanText (sliceBetween lxW 34 lxW.length)) = []) ∧
    (extractLatexSections lxW
        = [(sectionKey "A".data "section".data,
            cleanText (sliceBetween lxW 34 lxW.length))] ∧
      chunkLatex cfg0 lxW "src".data
        = (((chunkText cfg0 (cleanText (sliceBetween lxW 34 lxW.length)) "src".data).map
              fun ch => { ch with sectionTag := sectionKey "A".data "section".data }).mapIdx
            fun i ch => { ch with chunkIndex := i }) ∧
      (∀ latex' : Str, ∀ m : LatexMarker, allMarkers latex' = [m] →
        pyStrip (cleanText (sliceBetween latex' m.stop latex'.length)) = [] →
        extractLatexSections latex' = [])) :=
  ⟨by decide, rfl, rfl, by decide, by decide,
   chunkLatex_duplicate_section cfg0 lxW "src".data
     ⟨0, 11, "A".data, "section".data⟩ ⟨23, 34, "A".data, "section".data⟩
     (by decide) rfl rfl (by decide) (by decide)⟩

theorem wordsOf_cons_ws {c : Char} (h : pyIsSpace c) (t : Str) :
    wordsOf (c :: t) = wordsOf t := by
  simp [wordsOf, wordsOfAux, h]

theorem wordsOfAux_append_ws {w : Char} (hw : pyIsSpace w) (b : Str) :
    ∀ (a : Str) (cur : Str),
      wordsOfAux cur (a ++ w :: b) = wordsOfAux cur a ++ wordsOf b := by
  intro a
  induction a with
  | nil =>
    intro cur
    rw [List.nil_append]
    conv_lhs => rw [wordsOfAux]
    rw [if_pos hw]
    conv_rhs => rw [wordsOfAux]
    cases hcur : cur.isEmpty with
    | true => simp [hcur, wordsOf]
    | false => simp [hcur, wordsOf]
  | cons d a' ih =>
    intro cur
    rw [List.cons_append]
    conv_lhs => rw [wordsOfAux]
    conv_rhs => rw [wordsOfAux]
    split
    · split
      · exact ih []
      · rw [ih [], List.cons_append]
    · exact ih (d :: cur)

theorem wordsOf_append_ws {w : Char} (hw : pyIsSpace w) (a b : Str) :
    wordsOf (a ++ w :: b) = wordsOf a ++ wordsOf b :=
  wordsOfAux_append_ws hw b a []

theorem wordsOfAux_allws {w : Str} (hw : ∀ c ∈ w, pyIsSpace c) :
    ∀ cur : Str, wordsOfAux cur w = if cur.isEmpty then [] else [cur.reverse] := by
  induction w with
  | nil => intro cur; rw [wordsOfAux]
  | cons c w' ih =>
    intro cur
    have ihw : ∀ d ∈ w', pyIsSpace d := fun d hd => hw d (by simp [hd])
    conv_lhs => rw [wordsOfAux]
    rw [if_pos (hw c (by simp))]
    cases hcur : cur.isEmpty with
    | true => simp [hcur, ih ihw]
    | false => simp [hcur, ih ihw]

theorem wordsOfAux_append_allws {w : Str} (hw : ∀ c ∈ w, pyIsSpace c) :
    ∀ (a cur : Str), wordsOfAux cur (a ++ w) = wordsOfAux cur a := by
  intro a
  induction a with
  | nil =>
    intro cur
    rw [List.nil_append, wordsOfAux_allws hw cur]
    conv_rhs => rw [wordsOfAux]
  | cons d a' ih =>
    intro cur
    rw [List.cons_append]
    conv_lhs => rw [wordsOfAux]
    conv_rhs => rw [wordsOfAux]
    split
    · split
      · exact ih []
      · rw [ih []]
    · exact ih (d :: cur)

theorem wordsOf_append_allws {w : Str} (hw : ∀ c ∈ w, pyIsSpace c) (a : Str) :
    wordsOf (a ++ w) = wordsOf a :=
  wordsOfAux_append_allws hw a []

theorem wordsOf_leading_allws {w : Str} (hw : ∀ c ∈ w, pyIsSpace c) (b : Str) :
    wordsOf (w ++ b) = wordsOf b := by
  induction w with
  | nil => rfl
  | cons c w' ih =>
    rw [List.cons_append, wordsOf_cons_ws (hw c (by simp))]
    exact ih (fun d hd => hw d (by simp [hd]))

theorem wordsOf_pyStrip (s : Str) : wordsOf (pyStrip s) = wordsOf s := by
  have hlead : wordsOf (s.dropWhile pyIsSpace) = wordsOf s := by
    conv_rhs => rw [← List.takeWhile_append_dropWhile pyIsSpace s]
    rw [wordsOf_leading_allws (fun c hc => List.mem_takeWhile_imp hc)]
  have hsplit : s.dropWhile pyIsSpace
      = pyStrip s ++ ((s.dropWhile pyIsSpace).reverse.takeWhile pyIsSpace).reverse := by
    unfold pyStrip
    rw [← List.reverse_append, List.takeWhile_append_dropWhile, List.reverse_reverse]
  rw [← hlead, hsplit,
    wordsOf_append_allws (fun c hc => List.mem_takeWhile_imp (List.mem_reverse.mp hc))]

theorem wordsOfAux_ne_nil {cur : Str} (hc : ¬ cur = []) (input : Str) :
    ¬ wordsOfAux cur input = [] := by
  induction input generalizing cur with
  | nil =>
    rw [wordsOfAux, if_neg (by simpa [List.isEmpty_iff] using hc)]
    simp
  | cons c rest ih =>
    rw [wordsOfAux]
    split
    · rw [if_neg (by simpa [List.isEmpty_iff] using hc)]
      simp
    · exact ih (by simp)

theorem wordsOf_nil_allws {s : Str} (h : wordsOf s = []) : ∀ c ∈ s, pyIsSpace c := by
  induction s with
  | nil => simp
  | cons c rest ih =>
    by_cases hc : pyIsSpace c
    · rw [wordsOf_cons_ws hc] at h
      intro d hd
      rcases List.mem_cons.mp hd with rfl | hd'
      · exact hc
      · exact ih h d hd'
    · exfalso
      unfold wordsOf at h
      rw [wordsOfAux, if_neg hc] at h
      exact wordsOfAux_ne_nil (by simp) rest h

theorem joinSp_nil : joinSp [] = [] := rfl

theorem joinSp_cons (x : Str) (l : List Str) :
    joinSp (x :: l) = x ++ (if l.isEmpty then [] else ' ' :: joinSp l) := by
  cases l with
  | nil => simp [joinSp]
  | cons y l' => rfl

theorem wordsOf_joinSp_fSent_cons (x : Str) (L : List Str) :
    wordsOf (joinSp (fSent (x :: L))) = wordsOf x ++ wordsOf (joinSp (fSent L)) := by
  by_cases hx : pyStrip x = []
  · have hfx : fSent (x :: L) = fSent L := by
      unfold fSent
      rw [List.map_cons, List.filter_cons, hx]
      simp
    rw [hfx, ← wordsOf_pyStrip x, hx]
    rfl
  · have hfx : fSent (x :: L) = pyStrip x :: fSent L := by
      unfold fSent
      rw [List.map_cons, List.filter_cons]
      rw [if_pos (by simpa [List.isEmpty_iff] using hx)]
    rw [hfx, joinSp_cons]
    cases hL : (fSent L).isEmpty with
    | true =>
      rw [if_pos rfl, List.append_nil, wordsOf_pyStrip,
        List.isEmpty_iff.mp hL]
      simp [joinSp, wordsOf, wordsOfAux]
    | false =>
      rw [if_neg (by simp), wordsOf_append_ws (by rfl), wordsOf_pyStrip]

theorem splitGo_words :
    ∀ (input cur pend : Str) (se : Bool), (∀ d ∈ pend, pyIsSpace d) →
      wordsOf (joinSp (fSent (splitGo cur pend se input)))
        = wordsOf (cur.reverse ++ pend.reverse ++ input) := by
  intro input
  induction input with
  | nil =>
    intro cur pend se hpend
    rw [splitGo, wordsOf_joinSp_fSent_cons,
      show wordsOf (joinSp (fSent ([] : List Str))) = [] from rfl, List.append_nil,
      List.reverse_append, List.append_nil]
  | cons c rest ih =>
    intro cur pend se hpend
    rw [splitGo]
    by_cases hws : pyIsSpace c
    · rw [if_pos hws]
      rw [ih cur (c :: pend) se (by
        intro d hd
        rcases List.mem_cons.mp hd with rfl | hd'
        · exact hws
        · exact hpend d hd')]
      simp [List.append_assoc]
    · rw [if_neg hws]
      by_cases hb : (se && !pend.isEmpty && isUpperAZ c) = true
      · rw [if_pos hb]
        rw [wordsOf_joinSp_fSent_cons, ih [c] [] (isSentenceEnd c) (by simp)]
        have hpne : ¬ pend = [] := by
          rcases Bool.and_eq_true .. |>.mp hb with ⟨h1, _⟩
          rcases Bool.and_eq_true .. |>.mp h1 with ⟨_, h2⟩
          simpa [List.isEmpty_iff] using h2
        have hallws : ∀ x ∈ pend.reverse, pyIsSpace x :=
          fun x hx => hpend x (List.mem_reverse.mp hx)
        obtain ⟨d, w', hdw⟩ : ∃ d w', pend.reverse = d :: w' := by
          cases hrev : pend.reverse with
          | nil => exact absurd (by simpa using hrev) hpne
          | cons d w' => exact ⟨d, w', rfl⟩
        conv_rhs => rw [hdw, List.append_assoc, List.cons_append,
          wordsOf_append_ws (hallws d (by rw [hdw]; simp)),
          wordsOf_leading_allws (fun x hx => hallws x (by rw [hdw]; simp [hx]))]
        simp
      · rw [if_neg hb]
        rw [ih (c :: (pend ++ cur)) [] (isSentenceEnd c) (by simp)]
        simp [List.append_assoc]

theorem wordsOf_splitIntoSentences (t : Str) :
    wordsOf (joinSp (splitIntoSentences t)) = wordsOf t := by
  have h := splitGo_words t [] [] false (by simp)
  simpa [splitIntoSentences, fSent] using h

theorem splitGo_sumLens :
    ∀ (input cur pend : Str) (se : Bool),
      sumLens (splitGo cur pend se input) + (splitGo cur pend se input).length
        ≤ cur.length + pend.length + input.length + 1 := by
  intro input
  induction input with
  | nil =>
    intro cur pend se
    rw [splitGo]
    simp [sumLens]
  | cons c rest ih =>
    intro cur pend se
    rw [splitGo]
    by_cases hws : pyIsSpace c
    · rw [if_pos hws]
      have h := ih cur (c :: pend) se
      simp only [List.length_cons] at h ⊢
      omega
    · rw [if_neg hws]
      by_cases hb : (se && !pend.isEmpty && isUpperAZ c) = true
      · rw [if_pos hb]
        have h1 := ih [c] [] (isSentenceEnd c)
        have hpne : ¬ pend = [] := by
          rcases Bool.and_eq_true .. |>.mp hb with ⟨hx, _⟩
          rcases Bool.and_eq_true .. |>.mp hx with ⟨_, h2⟩
          simpa [List.isEmpty_iff] using h2
        have hplen : 1 ≤ pend.length := List.length_pos.mpr hpne
        rw [sumLens_cons, List.length_cons]
        simp only [List.length_reverse, List.length_cons, List.length_nil] at h1 ⊢
        omega
      · rw [if_neg hb]
        have h := ih (c :: (pend ++ cur)) [] (isSentenceEnd c)
        simp only [List.length_cons, List.length_append, List.length_nil] at h ⊢
        omega

theorem fSent_sumLens (L : List Str) :
    sumLens (fSent L) + (fSent L).length ≤ sumLens L + L.length := by
  induction L with
  | nil => simp [fSent, sumLens]
  | cons x L ih =>
    unfold fSent at ih ⊢
    rw [List.map_cons, List.filter_cons]
    have hx := pyStrip_length_le x
    split
    · rw [sumLens_cons, List.length_cons, sumLens_cons, List.length_cons]
      omega
    · rw [sumLens_cons, List.length_cons]
      omega

theorem chunkLoop_single (cfg : ChunkerCfg) :
    ∀ (sents cur : List Str) (curLen : Nat),
      curLen + sumLens sents + sents.length ≤ cfg.chunkSize + 1 →
      chunkLoop cfg sents cur curLen
        = if (cur ++ sents).isEmpty then [] else [cur ++ sents] := by
  intro sents
  induction sents with
  | nil =>
    intro cur curLen _
    rw [chunkLoop, List.append_nil]
  | cons s rest ih =>
    intro cur curLen h
    rw [chunkLoop]
    rw [sumLens_cons, List.length_cons] at h
    have hcond : ¬ (decide (curLen + s.length > cfg.chunkSize) && !cur.isEmpty) = true := by
      intro hcontra
      rcases Bool.and_eq_true .. |>.mp hcontra with ⟨hd, _⟩
      have h1 : curLen + s.length > cfg.chunkSize := of_decide_eq_true hd
      omega
    rw [if_neg hcond]
    rw [ih (cur ++ [s]) (curLen + s.length + 1) (by omega)]
    have hre : (cur ++ [s]) ++ rest = cur ++ (s :: rest) := by simp
    rw [hre]

theorem splitIntoSentences_ne_nil {text : Str} (h : ¬ cleanText text = []) :
    ¬ splitIntoSentences (cleanText text) = [] := by
  intro hnil
  have hw : wordsOf (cleanText text) = [] := by
    rw [← wordsOf_splitIntoSentences (cleanText text), hnil]
    rfl
  have h2 : wordsOf (stripRefCmds (stripTextCmds (collapseSpaces (reduceNewlines text))))
      = [] :=
    (wordsOf_pyStrip _).symm.trans hw
  exact h (allws_pyStrip_nil (wordsOf_nil_allws h2))

/-- C9 (amended): empty or whitespace-only input yields zero chunks, and
any text shorter than `chunkSize` whose *cleaned* form is non-empty yields
exactly one chunk, faithful to the normalized input modulo whitespace
collapsing (same word sequence).  The original claim fails for non-blank
inputs that normalization empties, see `chunkText_clean_empty_cx`. -/
theorem chunkText_short (cfg : ChunkerCfg) (text source : Str) :
    (pyStrip text = [] → chunkText cfg text source = []) ∧
    (¬ cleanText text = [] → text.length < cfg.chunkSize →
      chunkText cfg text source
        = [{ text := joinSp (splitIntoSentences (cleanText text)),
             chunkIndex := 0, source := source, sectionTag := [],
             startOffset := 0,
             endOffset := (joinSp (splitIntoSentences (cleanText text))).length }] ∧
      wordsOf (joinSp (splitIntoSentences (cleanText text)))
        = wordsOf (cleanText text)) := by
  constructor
  · intro h
    unfold chunkText
    rw [if_pos h]
  · intro hclean hlen
    refine ⟨?_, wordsOf_splitIntoSentences _⟩
    have hstrip : ¬ pyStrip text = [] := fun hs => hclean (cleanText_nil_of_strip_nil hs)
    unfold chunkText
    rw [if_neg hstrip]
    have hone : chunkSentenceLists cfg text = [splitIntoSentences (cleanText text)] := by
      unfold chunkSentenceLists
      have hbound : 0 + sumLens (splitIntoSentences (cleanText text))
          + (splitIntoSentences (cleanText text)).length ≤ cfg.chunkSize + 1 := by
        have h1 := splitGo_sumLens (cleanText text) [] [] false
        have h2 := fSent_sumLens (splitGo [] [] false (cleanText text))
        have h3 := cleanText_length_le text
        have hid : splitIntoSentences (cleanText text)
            = fSent (splitGo [] [] false (cleanText text)) := rfl
        rw [hid]
        simp only [List.length_nil] at h1
        omega
      rw [chunkLoop_single cfg _ [] 0 hbound, List.nil_append,
        if_neg (by simpa [List.isEmpty_iff] using splitIntoSentences_ne_nil hclean)]
    rw [hone]
    rfl

/-- C9 counterexample to the claim as stated: `\cite{x}` is neither empty
nor whitespace-only and is far shorter than the chunk size, yet cleaning
erases it entirely and `chunk_text` returns zero chunks instead of exactly
one. -/
theorem chunkText_clean_empty_cx :
    ¬ pyStrip "\\cite\x7bx\x7d".data = [] ∧
    ("\\cite\x7bx\x7d".data : Str).length < 1000 ∧
    chunkText ⟨1000, 200, true⟩ "\\cite\x7bx\x7d".data "src".data = [] := by
  decide

theorem chunkText_short_witness :
    (¬ cleanText "Hello there. Bye.".data = []) ∧
    ("Hello there. Bye.".data : Str).length < cfg0.chunkSize ∧
    ((pyStrip "Hello there. Bye.".data = [] →
        chunkText cfg0 "Hello there. Bye.".data "src".data = []) ∧
     (¬ cleanText "Hello there. Bye.".data = [] →
       ("Hello there. Bye.".data : Str).length < cfg0.chunkSize →
       chunkText cfg0 "Hello there. Bye.".data "src".data
         = [{ text := joinSp (splitIntoSentences (cleanText "Hello there. Bye.".data)),
              chunkIndex := 0, source := "src".data, sectionTag := [],
              startOffset := 0,
              endOffset := (joinSp (splitIntoSentences
                (cleanText "Hello there. Bye.".data))).length }] ∧
       wordsOf (joinSp (splitIntoSentences (cleanText "Hello there. Bye.".data)))
         = wordsOf (cleanText "Hello there. Bye.".data))) :=
  ⟨by decide, by decide, chunkText_short cfg0 "Hello there. Bye.".data "src".data⟩
